import Mathlib

/-!
Verification development for a two-stage scraping pipeline:
a resumable multi-target browser extraction loop
(`clean_multi_provider_scraper.py`) and a URL-rewriting + idempotent
asset-fetch pipeline (`url_quality_fixer.py`).

Python strings are embedded as `List Char`; Python's `str.replace`
(leftmost, non-overlapping, global substring replacement) is embedded
as `replaceList`.  Stateful code (the batch orchestrator's main loop,
the asset-fetch loop) is embedded as explicit state passing producing
an event trace; external collaborators (the browser, the HTTP client,
the clock) are oracles passed as function arguments.
-/

namespace Roobet

/-- Python strings are modelled as lists of characters. -/
abbrev Str := List Char

/-! ## `url_quality_fixer.fix_image_url_quality` and its helpers -/

/-- Fuel-indexed worker for `replaceList`; structural recursion on the
fuel so that the kernel can evaluate it.  With `s.length ≤ fuel` it
computes Python's `str.replace`: each step consumes at least one
character of `s` (a fired pattern consumes `pat.length ≥ 1` of them),
so fuel `s.length` always suffices. -/
def replaceListAux (pat repl : Str) : Nat → Str → Str
  | 0, s => s
  | fuel + 1, s =>
    match s with
    | [] => []
    | c :: t =>
        if pat.isEmpty = false ∧ pat.isPrefixOf (c :: t) = true then
          repl ++ replaceListAux pat repl fuel ((c :: t).drop pat.length)
        else
          c :: replaceListAux pat repl fuel t

/-- Embedding of Python `str.replace(pat, repl)` for a non-empty `pat`:
replace every leftmost non-overlapping occurrence of `pat` by `repl`,
scanning left to right.  (An empty `pat` never fires; the source only
uses non-empty literal patterns.) -/
def replaceList (pat repl : Str) (s : Str) : Str :=
  replaceListAux pat repl s.length s

/-- First rewrite rule's search pattern: the known low-fidelity combination. -/
def badPat : Str := "quality=20,blur=150".data

/-- First rewrite rule's replacement. -/
def goodRepl : Str := "quality=90,blur=0".data

/-- Second rewrite rule's search pattern: the high-fidelity cover combination. -/
def coverPat : Str := "width=195,height=260,quality=90,blur=0,fit=cover".data

/-- Second rewrite rule's replacement: the documented better pattern. -/
def containRepl : Str := "width=400,height=600,quality=95,blur=0,fit=contain".data

/-- The `quality=95,blur=0` fragment of `containRepl` (used to state what
the second rule leaves behind). -/
def best95 : Str := "quality=95,blur=0".data

/-- Embedding of `fix_image_url_quality` from `url_quality_fixer.py`:
`if not url: return url`, then the two sequential global `str.replace`
calls, in source order. -/
def fix_image_url_quality (url : Str) : Str :=
  if url = [] then url
  else replaceList coverPat containRepl (replaceList badPat goodRepl url)

example : fix_image_url_quality "https://x/img?quality=20,blur=150&z".data
    = "https://x/img?quality=90,blur=0&z".data := by decide

example : fix_image_url_quality "width=195,height=260,quality=90,blur=0,fit=cover".data
    = "width=400,height=600,quality=95,blur=0,fit=contain".data := by decide

example : fix_image_url_quality [] = [] := by decide

example : fix_image_url_quality "https://unrelated/url.png".data
    = "https://unrelated/url.png".data := by decide

/-! ## Small helpers shared by both source files -/

/-- Decimal digit character, `digitChar d = chr(48 + d)`. -/
def digitChar (d : Nat) : Char := Char.ofNat (48 + d)

/-- Fuel-indexed decimal rendering worker. -/
def natDecAux : Nat → Nat → Str → Str
  | 0, _, acc => acc
  | fuel + 1, n, acc =>
      let d := digitChar (n % 10)
      if n / 10 = 0 then d :: acc else natDecAux fuel (n / 10) (d :: acc)

/-- Decimal rendering of a natural number, as Python's `str(n)` /
f-string interpolation produces it. -/
def natDec (n : Nat) : Str := natDecAux (n + 1) n []

example : natDec 0 = "0".data := by decide
example : natDec 207 = "207".data := by decide

/-- Python's `x or default` for a string-or-None value: the default is
taken when the value is absent (`None`) or empty (falsy). -/
def pyOr (o : Option Str) (dflt : Str) : Str :=
  match o with
  | none => dflt
  | some s => if s = [] then dflt else s

/-! ## `clean_multi_provider_scraper.scrape_single_provider` -/

/-- One catalog record harvested from an anchor
(`game_data = {'index': i, 'name': ..., 'image_url': ..., 'game_link': ...}`). -/
structure Game where
  index : Nat
  name : Str
  image_url : Str
  game_link : Str
deriving DecidableEq

/-- What one `<a>` anchor yields during extraction: `none` models the
per-anchor `except` path (the `find_element`/`get_attribute` calls
raise); `some (alt, src, href)` models the three attribute reads, each
possibly absent (`None`). -/
abbrev Anchor := Option (Option Str × Option Str × Option Str)

/-- Result of `scrape_single_provider`: the dict
`{'success', 'games', 'click_count', 'html'}` (plus `'error'` on the
failure path). -/
structure ExtractionResult where
  success : Bool
  games : List Game
  click_count : Nat
  html : Str
  error : Option Str
deriving DecidableEq

/-- Build the record for anchor number `i` (1-based) from its attribute
reads, with the source's falsy-or defaults:
`img.get_attribute("alt") or f"Game {i}"`, `... or ""`. -/
def mkGame (i : Nat) (d : Option Str × Option Str × Option Str) : Game :=
  { index := i
    name := pyOr d.1 ("Game ".data ++ natDec i)
    image_url := pyOr d.2.1 []
    game_link := pyOr d.2.2 [] }

/-- The harvest loop `for i, anchor in enumerate(anchors, 1)` starting
at index `i`: a raising anchor is skipped, the others append a record. -/
def harvestAux : Nat → List Anchor → List Game
  | _, [] => []
  | i, a :: rest =>
      match a with
      | none => harvestAux (i + 1) rest
      | some d => mkGame i d :: harvestAux (i + 1) rest

/-- The harvest loop over all anchors, 1-based as in the source. -/
def harvest (anchors : List Anchor) : List Game := harvestAux 1 anchors

/-- The expansion loop `while click_count < 50` with `gas = 50 - click_count`
fuel: if the load-more control is found at click count `c` it is clicked
(`c + 1`) and the loop continues, otherwise the loop breaks. -/
def clickLoopAux (found : Nat → Bool) : Nat → Nat → Nat
  | 0, c => c
  | gas + 1, c => if found c then clickLoopAux found gas (c + 1) else c

/-- The full expansion loop of `scrape_single_provider`: starts at
`click_count = 0` with the `while click_count < 50` safety limit. -/
def clickLoop (found : Nat → Bool) : Nat := clickLoopAux found 50 0

/-- Abstraction of one target's page as seen through the browser oracle:
whether navigation succeeds, whether the load-more control is found at
each click count (a `False` models the `except: break` path), whether
the container `ul`/`div` lookups succeed, the anchors found, and the
page source. -/
structure Page where
  navOk : Bool
  buttonFound : Nat → Bool
  containerOk : Bool
  anchors : List Anchor
  html : Str

/-- Embedding of `scrape_single_provider`: navigation failure or a
container-lookup failure hits the outer `except` and yields
`{'success': False, 'games': [], 'click_count': 0, 'html': ''}`;
otherwise the expansion loop runs, the anchors are harvested (per-anchor
failures skipped), and a success result is returned. -/
def scrape_single_provider (p : Page) : ExtractionResult :=
  if p.navOk then
    let clicks := clickLoop p.buttonFound
    if p.containerOk then
      { success := true, games := harvest p.anchors, click_count := clicks
        html := p.html, error := none }
    else
      { success := false, games := [], click_count := 0, html := [], error := some [] }
  else
    { success := false, games := [], click_count := 0, html := [], error := some [] }

/-! ## `clean_multi_provider_scraper.main` (BatchOrchestrator + CheckpointStore) -/

/-- One entry of the provider list: `(provider_url, provider_name)`. -/
structure Target where
  url : Str
  name : Str

/-- The checkpoint dict written by `main`:
`{'completed_providers', 'last_updated', 'total_games_so_far',
'successful_providers'}`. -/
structure Checkpoint where
  completed_providers : List Str
  last_updated : Str
  total_games_so_far : Nat
  successful_providers : Nat
deriving DecidableEq

/-- Observable actions of the orchestrator loop, in program order:
skipping an already-completed target, `close_all_chrome()`, invoking
`scrape_single_provider` for a named target, `save_provider_data`
writing that target's output files, the checkpoint `json.dump`, and
the `time.sleep(5)` cooldown. -/
inductive Event where
  | skip (name : Str)
  | close
  | scrape (name : Str)
  | save (name : Str)
  | chk (cp : Checkpoint)
  | cooldown
deriving DecidableEq

/-- Mutable state of `main`'s loop: `completed_providers`,
`total_games`, `successful_providers`. -/
structure MainState where
  completed : List Str
  total_games : Nat
  successful : Nat
deriving DecidableEq

/-- External world for one batch run: `result i` is the outcome
`scrape_single_provider` would produce for the `i`-th list position
(the browser oracle), `now i` the `datetime.now().isoformat()` string
at that position (the clock oracle). -/
structure RunEnv where
  result : Nat → ExtractionResult
  now : Nat → Str

/-- One iteration of `main`'s `for i, (provider_url, provider_name)`
loop: skip if already completed; otherwise close Chrome, scrape, and on
success save the data, update the totals, append to
`completed_providers` and write the checkpoint; sleep either way. -/
def mainStep (env : RunEnv) (i : Nat) (st : MainState) (t : Target) :
    MainState × List Event :=
  if t.name ∈ st.completed then
    (st, [.skip t.name])
  else
    let r := env.result i
    if r.success then
      let st' : MainState :=
        { completed := st.completed ++ [t.name]
          total_games := st.total_games + r.games.length
          successful := st.successful + 1 }
      let cp : Checkpoint :=
        { completed_providers := st'.completed
          last_updated := env.now i
          total_games_so_far := st'.total_games
          successful_providers := st'.successful }
      (st', [.close, .scrape t.name, .save t.name, .chk cp, .cooldown])
    else
      (st, [.close, .scrape t.name, .cooldown])

/-- The orchestrator loop over the remaining targets, starting at
1-based position `i` with state `st`; returns the final state and the
event trace. -/
def mainLoop (env : RunEnv) : Nat → MainState → List Target → MainState × List Event
  | _, st, [] => (st, [])
  | i, st, t :: ts =>
      let p := mainStep env i st t
      let rest := mainLoop env (i + 1) p.1 ts
      (rest.1, p.2 ++ rest.2)

/-- One whole run of `main`: `completed0` is the `completed_providers`
list loaded from the checkpoint at run start (empty when the file is
absent or fails to parse); the cumulative counters start at zero
(`total_games = 0`, `successful_providers = 0` in the source). -/
def mainRun (env : RunEnv) (providers : List Target) (completed0 : List Str) :
    MainState × List Event :=
  mainLoop env 1 { completed := completed0, total_games := 0, successful := 0 } providers

/-- First checkpoint write in a trace, if any. -/
def firstChk : List Event → Option Checkpoint
  | [] => none
  | .chk cp :: _ => some cp
  | _ :: es => firstChk es

/-! ## `url_quality_fixer.sanitize_filename` and the asset-fetch pipeline -/

/-- Python's `\s` (ASCII range) as used by `re.sub(r'\s+', ' ', ...)`. -/
def isSpace (c : Char) : Bool :=
  c = ' ' ∨ c = '\t' ∨ c = '\n' ∨ c = '\r' ∨ c = '\x0b' ∨ c = '\x0c'

/-- `str.replace(char, '_')` for a single-character pattern: a
character-wise map. -/
def replaceAllChar (c r : Char) (s : Str) : Str :=
  s.map (fun x => if x = c then r else x)

/-- The invalid-character sweep of `sanitize_filename`:
`for char in '<>:"/\\|?*': filename = filename.replace(char, '_')`. -/
def removeInvalid (s : Str) : Str :=
  "<>:\"/\\|?*".data.foldl (fun acc c => replaceAllChar c '_' acc) s

/-- Fuel-indexed worker collapsing each maximal whitespace run to one
space, as `re.sub(r'\s+', ' ', s)` does. -/
def collapseWsAux : Nat → Str → Str
  | 0, s => s
  | _ + 1, [] => []
  | fuel + 1, c :: t =>
      if isSpace c then ' ' :: collapseWsAux fuel (t.dropWhile isSpace)
      else c :: collapseWsAux fuel t

/-- `re.sub(r'\s+', ' ', s)`. -/
def collapseWs (s : Str) : Str := collapseWsAux s.length s

/-- `s.strip(...)`: drop the characters satisfying `p` from both ends. -/
def stripBy (p : Char → Bool) (s : Str) : Str :=
  ((s.dropWhile p).reverse.dropWhile p).reverse

/-- Embedding of `sanitize_filename`: replace Windows-invalid
characters by `_`, collapse whitespace runs, `strip()`, `strip('.')`. -/
def sanitize_filename (s : Str) : Str :=
  stripBy (fun c => c = '.') (stripBy isSpace (collapseWs (removeInvalid s)))

example : sanitize_filename "  a<b>:  c?? ".data = "a_b__ c__".data := by decide

/-- `os.path.join` with a single separator. -/
def pathJoin (a b : Str) : Str := a ++ '/' :: b

/-- One entry of the per-provider `games` list read back from the
stage-1 JSON file; each field may be missing (`dict.get`). -/
structure PyGame where
  name : Option Str
  image_url : Option Str
  game_link : Option Str

/-- One entry of `processed_games` (a `FetchedAsset`). -/
structure Asset where
  file_name : Str
  game_title : Str
  game_provider : Str
  game_url : Str
  original_url : Str
  fixed_url : Str
  local_path : Str
deriving DecidableEq

/-- An HTTP fetch attempt performed by `download_and_convert_image` for
the record at 1-based position `i`, with the (fixed) URL fetched and
the output path written. -/
inductive FEvent where
  | fetch (i : Nat) (url : Str) (path : Str)
deriving DecidableEq

/-- Accumulated outcome of the per-provider loop: `successful_downloads`,
`processed_games`, `bad_quality_fixed`, and the fetch events performed. -/
structure PipeOut where
  succ : Nat
  assets : List Asset
  bad : Nat
  events : List FEvent
deriving DecidableEq

/-- `game.get('name', f"Game {i}")`. -/
def gameNameOf (i : Nat) (g : PyGame) : Str :=
  g.name.getD ("Game ".data ++ natDec i)

/-- `f"{sanitized_provider_name} - {sanitized_game_name}.webp"`. -/
def fileNameOf (prov : Str) (i : Nat) (g : PyGame) : Str :=
  sanitize_filename prov ++ " - ".data ++ sanitize_filename (gameNameOf i g)
    ++ ".webp".data

/-- `os.path.join(os.path.join("Final_Quality_Fixed", provider_name), filename)`. -/
def pathOf (prov : Str) (i : Nat) (g : PyGame) : Str :=
  pathJoin (pathJoin "Final_Quality_Fixed".data prov) (fileNameOf prov i g)

/-- The `processed_games.append({...})` dict for one record. -/
def mkAsset (prov : Str) (i : Nat) (g : PyGame) : Asset :=
  { file_name := fileNameOf prov i g
    game_title := gameNameOf i g
    game_provider := prov
    game_url := g.game_link.getD []
    original_url := g.image_url.getD []
    fixed_url := fix_image_url_quality (g.image_url.getD [])
    local_path := pathOf prov i g }

/-- One iteration of the `for i, game in enumerate(games, 1)` loop of
`process_provider_with_fixed_urls`: an empty image URL `continue`s
(nothing appended); otherwise, if the derived path exists on disk
(`fsE`) the record is counted successful with no fetch; otherwise
`download_and_convert_image` runs (its internal `except Exception`
makes it return `False` on any fetch/decode/encode exception, modelled
by the oracle `fOk i`), and the `processed_games` entry is appended
unconditionally after the branch. -/
def processGame (prov : Str) (fsE : Str → Bool) (fOk : Nat → Bool)
    (i : Nat) (g : PyGame) : PipeOut :=
  let orig := g.image_url.getD []
  if orig = [] then ⟨0, [], 0, []⟩
  else
    let bad := if badPat <:+: orig then 1 else 0
    let path := pathOf prov i g
    if fsE path then ⟨1, [mkAsset prov i g], bad, []⟩
    else if fOk i then
      ⟨1, [mkAsset prov i g], bad, [.fetch i (fix_image_url_quality orig) path]⟩
    else
      ⟨0, [mkAsset prov i g], bad, [.fetch i (fix_image_url_quality orig) path]⟩

/-- The per-provider loop from 1-based position `i` on, accumulating
counters, records and fetch events in program order. -/
def pipeAux (prov : Str) (fsE : Str → Bool) (fOk : Nat → Bool) :
    Nat → List PyGame → PipeOut
  | _, [] => ⟨0, [], 0, []⟩
  | i, g :: gs =>
      let r := processGame prov fsE fOk i g
      let rest := pipeAux prov fsE fOk (i + 1) gs
      ⟨r.succ + rest.succ, r.assets ++ rest.assets, r.bad + rest.bad,
        r.events ++ rest.events⟩

/-- Embedding of `process_provider_with_fixed_urls` after a successful
JSON read: the whole per-game loop starting at index 1. -/
def process_provider_with_fixed_urls (prov : Str) (fsE : Str → Bool)
    (fOk : Nat → Bool) (games : List PyGame) : PipeOut :=
  pipeAux prov fsE fOk 1 games

/-! ## Checkpoint persistence (`json.dump` to `checkpoint.json`) -/

/-- JSON string escaping for the characters the checkpoint fields can
need (`"` and `\`); other characters are emitted verbatim (the
checkpoint fields are ASCII provider names and an ISO timestamp). -/
def escChar (c : Char) : Str :=
  if c = '"' then ['\\', '"'] else if c = '\\' then ['\\', '\\'] else [c]

/-- Escape a whole string. -/
def escape : Str → Str
  | [] => []
  | c :: t => escChar c ++ escape t

/-- A JSON string literal. -/
def jstr (s : Str) : Str := '"' :: (escape s ++ ['"'])

/-- The item lines of a non-empty JSON list at `indent=2` nesting
depth 2 (four spaces), separated by `,\n`. -/
def serializeItems : List Str → Str
  | [] => []
  | [x] => "    ".data ++ jstr x
  | x :: y :: xs => "    ".data ++ jstr x ++ ",\n".data ++ serializeItems (y :: xs)

/-- The `completed_providers` JSON list as `json.dump(..., indent=2)`
renders it (`[]` inline when empty). -/
def serializeProviders (l : List Str) : Str :=
  match l with
  | [] => "[]".data
  | _ => "[\n".data ++ serializeItems l ++ "\n  ]".data

/-- Everything `json.dump(checkpoint_data, f, indent=2)` writes before
the final closing brace. -/
def serializeBody (cp : Checkpoint) : Str :=
  "\x7b\n  \"completed_providers\": ".data ++ serializeProviders cp.completed_providers
    ++ ",\n  \"last_updated\": ".data ++ jstr cp.last_updated
    ++ ",\n  \"total_games_so_far\": ".data ++ natDec cp.total_games_so_far
    ++ ",\n  \"successful_providers\": ".data ++ natDec cp.successful_providers
    ++ ['\n']

/-- The full serialized checkpoint file content. -/
def serializeCheckpoint (cp : Checkpoint) : Str := serializeBody cp ++ ['}']

example :
    serializeCheckpoint
      { completed_providers := ["Ace Roll".data]
        last_updated := "2025-01-01T00:00:00".data
        total_games_so_far := 41
        successful_providers := 1 }
    = ("\x7b\n  \"completed_providers\": [\n    \"Ace Roll\"\n  ],\n"
        ++ "  \"last_updated\": \"2025-01-01T00:00:00\",\n"
        ++ "  \"total_games_so_far\": 41,\n"
        ++ "  \"successful_providers\": 1\n\x7d").data := by decide

/-- The checkpoint-path contents observable if the process crashes at
an arbitrary point of the source's persist step
(`with open(checkpoint_file, 'w') as f: json.dump(...)`): the old
content before the truncating `open`, and every prefix of the new
serialization afterwards (including the empty file right after
truncation and the complete new content at the end). -/
def persistStates (old new : Str) : List Str :=
  old :: (List.range (new.length + 1)).map (fun k => new.take k)

/-- Modelled from the spec: "persists the entire state atomically
(write-then-replace)" — under a write-to-temp-then-rename persist, the
checkpoint path holds either the complete pre-write content or the
complete post-write content at every instant, nothing else. -/
def writeThenReplaceStates (old new : Str) : List Str := [old, new]

/-- A file content that Python's `json.load` + dict access would accept
as a checkpoint, modelled as: it is the exact serialization of some
checkpoint state. -/
def parsesAsCheckpoint (s : Str) : Prop := ∃ cp, s = serializeCheckpoint cp

/-! ## C3 — expansion bound -/

lemma clickLoopAux_le (found : Nat → Bool) :
    ∀ gas c, clickLoopAux found gas c ≤ c + gas := by
  intro gas
  induction gas with
  | zero => intro c; simp [clickLoopAux]
  | succ g ih =>
      intro c
      simp only [clickLoopAux]
      cases hfc : found c with
      | true =>
          simp only [if_true]
          exact le_trans (ih (c + 1)) (by omega)
      | false =>
          simp only [Bool.false_eq_true, if_false]
          omega

lemma clickLoopAux_all_true (found : Nat → Bool) (h : ∀ n, found n = true) :
    ∀ gas c, clickLoopAux found gas c = c + gas := by
  intro gas
  induction gas with
  | zero => intro c; simp [clickLoopAux]
  | succ g ih =>
      intro c
      simp only [clickLoopAux, h c, if_true]
      rw [ih (c + 1)]; omega

/-- C3 (expansion bound): the expansion loop of the page extractor
always terminates with at most 50 clicks; if the load-more control is
found on every iteration it performs exactly 50 clicks; and the
`click_count` field of any returned extraction result is between 0
and 50 (0 on the failure path, the loop's count on success). -/
theorem C3_expansion_bound (p : Page) (found : Nat → Bool) :
    clickLoop found ≤ 50 ∧
    ((∀ n, found n = true) → clickLoop found = 50) ∧
    (scrape_single_provider p).click_count ≤ 50 := by
  refine ⟨?_, ?_, ?_⟩
  · have := clickLoopAux_le found 50 0
    simpa [clickLoop] using this
  · intro h
    have := clickLoopAux_all_true found h 50 0
    simpa [clickLoop] using this
  · unfold scrape_single_provider
    by_cases hn : p.navOk
    · by_cases hc : p.containerOk
      · simp only [hn, hc, if_true]
        have := clickLoopAux_le p.buttonFound 50 0
        simpa [clickLoop] using this
      · simp [hn, hc]
    · simp [hn]

/-- Witness for C3: a page whose load-more control never disappears
stops at exactly 50 clicks. -/
theorem C3_expansion_bound_witness : clickLoop (fun _ => true) = 50 :=
  (C3_expansion_bound ⟨true, fun _ => true, true, [], []⟩ (fun _ => true)).2.1
    (fun _ => rfl)

/-! ## C6 — partial harvest resilience -/

lemma harvestAux_append (as bs : List Anchor) :
    ∀ i, harvestAux i (as ++ bs) = harvestAux i as ++ harvestAux (i + as.length) bs := by
  induction as with
  | nil => intro i; simp [harvestAux]
  | cons a rest ih =>
      intro i
      have e : i + (rest.length + 1) = i + 1 + rest.length := by omega
      cases a with
      | none =>
          simp only [List.cons_append, harvestAux, List.append_eq, ih (i + 1),
            List.length_cons, e]
      | some d =>
          simp only [List.cons_append, harvestAux, List.append_eq, ih (i + 1),
            List.length_cons, e]

lemma harvestAux_allSome_length (as : List Anchor) (h : ∀ a ∈ as, a ≠ none) :
    ∀ i, (harvestAux i as).length = as.length := by
  induction as with
  | nil => intro i; simp [harvestAux]
  | cons a rest ih =>
      intro i
      cases a with
      | none => exact absurd rfl (h none (by simp))
      | some d =>
          simp only [harvestAux, List.length_cons]
          rw [ih (fun x hx => h x (by simp [hx])) (i + 1)]

lemma harvestAux_allSome_index (as : List Anchor) (h : ∀ a ∈ as, a ≠ none) :
    ∀ i, (harvestAux i as).map (·.index) = List.range' i as.length := by
  induction as with
  | nil => intro i; simp [harvestAux]
  | cons a rest ih =>
      intro i
      cases a with
      | none => exact absurd rfl (h none (by simp))
      | some d =>
          simp only [harvestAux, List.map_cons, List.length_cons, List.range'_succ]
          rw [ih (fun x hx => h x (by simp [hx])) (i + 1)]
          rfl

/-- C6 (partial harvest resilience): when navigation and the container
lookup succeed, and among the `N` anchors exactly the one at 1-based
position `M = xs.length + 1` raises during image/name/link extraction
(the others all succeed), the extraction result still has
`success = true`, contains exactly `N - 1` records, and the records'
indices are exactly all 1-based positions except `M` (each surviving
anchor keeps its original position as its `index`). -/
theorem C6_partial_harvest (p : Page) (xs ys : List Anchor)
    (hnav : p.navOk = true) (hcont : p.containerOk = true)
    (hsplit : p.anchors = xs ++ none :: ys)
    (hxs : ∀ a ∈ xs, a ≠ none) (hys : ∀ a ∈ ys, a ≠ none) :
    (scrape_single_provider p).success = true ∧
    (scrape_single_provider p).games.length = p.anchors.length - 1 ∧
    (scrape_single_provider p).games.map (·.index)
      = (List.range' 1 p.anchors.length).filter
          (fun k => decide (k ≠ xs.length + 1)) := by
  have hres : scrape_single_provider p =
      { success := true, games := harvest p.anchors,
        click_count := clickLoop p.buttonFound, html := p.html, error := none } := by
    unfold scrape_single_provider
    simp [hnav, hcont]
  rw [hres]
  refine ⟨rfl, ?_, ?_⟩
  · simp only [harvest, hsplit, harvestAux_append, harvestAux, List.length_append]
    rw [harvestAux_allSome_length xs hxs, harvestAux_allSome_length ys hys]
    simp only [List.length_cons]
    omega
  · have h1 : (List.range' 1 xs.length).filter
        (fun k => decide (k ≠ xs.length + 1)) = List.range' 1 xs.length := by
      rw [List.filter_eq_self]
      intro a ha
      rw [List.mem_range'] at ha
      obtain ⟨j, hj, rfl⟩ := ha
      simp only [decide_eq_true_eq]
      omega
    have h2 : (List.range' (1 + 1 * xs.length) (1 + ys.length)).filter
        (fun k => decide (k ≠ xs.length + 1))
        = List.range' (xs.length + 2) ys.length := by
      have e : (1 : Nat) + 1 * xs.length = xs.length + 1 := by ring
      rw [e]
      have hsucc : List.range' (xs.length + 1) (1 + ys.length)
          = (xs.length + 1) :: List.range' (xs.length + 2) ys.length := by
        rw [Nat.add_comm 1 ys.length, List.range'_succ]
      rw [hsucc]
      simp only [List.filter_cons]
      have e2 : decide (xs.length + 1 ≠ xs.length + 1) = false := by simp
      rw [e2]
      simp only [Bool.false_eq_true, if_false]
      rw [List.filter_eq_self]
      intro a ha
      rw [List.mem_range'] at ha
      obtain ⟨j, hj, rfl⟩ := ha
      simp only [decide_eq_true_eq]
      omega
    simp only [harvest, hsplit, harvestAux_append, harvestAux, List.map_append]
    rw [harvestAux_allSome_index xs hxs, harvestAux_allSome_index ys hys]
    have e1 : 1 + xs.length + 1 = xs.length + 2 := by omega
    rw [e1]
    have hlen : (xs ++ none :: ys).length = 1 + ys.length + xs.length := by
      simp only [List.length_append, List.length_cons]; omega
    rw [hlen, ← List.range'_append 1 xs.length (1 + ys.length) 1, List.filter_append,
      h1, h2]

/-- Witness for C6: three anchors where the middle one raises — the
result keeps records 1 and 3 and stays successful. -/
theorem C6_partial_harvest_witness :
    (scrape_single_provider
        ⟨true, fun _ => false, true,
          [some (some "Alpha".data, some "u1".data, some "l1".data), none,
            some (none, none, none)], []⟩).success = true ∧
    (scrape_single_provider
        ⟨true, fun _ => false, true,
          [some (some "Alpha".data, some "u1".data, some "l1".data), none,
            some (none, none, none)], []⟩).games.length
      = ([some (some "Alpha".data, some "u1".data, some "l1".data), none,
            some (none, none, none)] : List Anchor).length - 1 ∧
    (scrape_single_provider
        ⟨true, fun _ => false, true,
          [some (some "Alpha".data, some "u1".data, some "l1".data), none,
            some (none, none, none)], []⟩).games.map (·.index)
      = (List.range' 1 ([some (some "Alpha".data, some "u1".data, some "l1".data),
            none, some (none, none, none)] : List Anchor).length).filter
          (fun k => decide (k ≠ [some (("Alpha".data : Str), some "u1".data,
            some "l1".data)].length + 1)) := by
  exact C6_partial_harvest _
    [some (some "Alpha".data, some "u1".data, some "l1".data)]
    [some (none, none, none)] rfl rfl rfl (by decide) (by decide)

/-! ## C1 — idempotent resume -/

/-- `true` unless the event is a checkpoint write whose
`completed_providers` list counts `name` differently from `c`. -/
def chkCountOk (name : Str) (c : Nat) : Event → Bool
  | .chk cp => decide (cp.completed_providers.count name = c)
  | _ => true

lemma mainLoop_completed_invariant (env : RunEnv) (name : Str) :
    ∀ (ps : List Target) (i : Nat) (st : MainState), name ∈ st.completed →
      Event.scrape name ∉ (mainLoop env i st ps).2 ∧
      Event.save name ∉ (mainLoop env i st ps).2 ∧
      (mainLoop env i st ps).2.all (chkCountOk name (st.completed.count name)) = true ∧
      (mainLoop env i st ps).1.completed.count name = st.completed.count name ∧
      name ∈ (mainLoop env i st ps).1.completed := by
  intro ps
  induction ps with
  | nil =>
      intro i st h
      simp [mainLoop, h]
  | cons t ts ih =>
      intro i st h
      by_cases hmem : t.name ∈ st.completed
      · have hstep : mainStep env i st t = (st, [.skip t.name]) := by
          simp [mainStep, hmem]
        obtain ⟨h1, h2, h3, h4, h5⟩ := ih (i + 1) st h
        simp only [mainLoop, hstep, List.cons_append, List.nil_append,
          List.mem_cons, List.all_cons]
        refine ⟨?_, ?_, ?_, h4, h5⟩
        · intro hc; rcases hc with hc | hc
          · exact Event.noConfusion hc
          · exact h1 hc
        · intro hc; rcases hc with hc | hc
          · exact Event.noConfusion hc
          · exact h2 hc
        · simp [chkCountOk, h3]
      · have hne : t.name ≠ name := fun he => hmem (he ▸ h)
        by_cases hsucc : (env.result i).success
        · set st' : MainState :=
            { completed := st.completed ++ [t.name]
              total_games := st.total_games + (env.result i).games.length
              successful := st.successful + 1 } with hst'
          have hmemst' : name ∈ st'.completed := by
            simp [hst', List.mem_append]
            exact Or.inl h
          have hcount : st'.completed.count name = st.completed.count name := by
            simp only [hst', List.count_append, List.count_singleton]
            have : (t.name == name) = false := by
              simp [hne]
            simp [this]
          have hstep : mainStep env i st t =
              (st', [.close, .scrape t.name, .save t.name,
                .chk { completed_providers := st'.completed
                       last_updated := env.now i
                       total_games_so_far := st'.total_games
                       successful_providers := st'.successful }, .cooldown]) := by
            simp [mainStep, hmem, hsucc, hst']
          obtain ⟨h1, h2, h3, h4, h5⟩ := ih (i + 1) st' hmemst'
          simp only [mainLoop, hstep, List.cons_append, List.nil_append,
            List.mem_cons, List.all_cons]
          refine ⟨?_, ?_, ?_, by rw [h4, hcount], h5⟩
          · intro hc
            rcases hc with hc | hc | hc | hc | hc | hc
            · exact Event.noConfusion hc
            · exact hne (Event.scrape.inj hc).symm
            · exact Event.noConfusion hc
            · exact Event.noConfusion hc
            · exact Event.noConfusion hc
            · exact h1 hc
          · intro hc
            rcases hc with hc | hc | hc | hc | hc | hc
            · exact Event.noConfusion hc
            · exact Event.noConfusion hc
            · exact hne (Event.save.inj hc).symm
            · exact Event.noConfusion hc
            · exact Event.noConfusion hc
            · exact h2 hc
          · rw [hcount] at h3
            simp [chkCountOk, hcount, h3]
        · have hstep : mainStep env i st t =
              (st, [.close, .scrape t.name, .cooldown]) := by
            simp [mainStep, hmem, hsucc]
          obtain ⟨h1, h2, h3, h4, h5⟩ := ih (i + 1) st h
          simp only [mainLoop, hstep, List.cons_append, List.nil_append,
            List.mem_cons, List.all_cons]
          refine ⟨?_, ?_, ?_, h4, h5⟩
          · intro hc
            rcases hc with hc | hc | hc | hc
            · exact Event.noConfusion hc
            · exact hne (Event.scrape.inj hc).symm
            · exact Event.noConfusion hc
            · exact h1 hc
          · intro hc
            rcases hc with hc | hc | hc | hc
            · exact Event.noConfusion hc
            · exact Event.noConfusion hc
            · exact Event.noConfusion hc
            · exact h2 hc
          · simp [chkCountOk, h3]

/-- C1 (idempotent resume): a target whose name is in the
`completed_providers` list loaded at run start is skipped entirely —
the run's trace contains no `scrape` (PageExtractor invocation) and no
`save` (output-file write) event for that name, and every checkpoint
written during the run counts that name exactly as often as the loaded
list did (it is never appended a second time). -/
theorem C1_idempotent_resume (env : RunEnv) (providers : List Target)
    (init : List Str) (name : Str) (h : name ∈ init) :
    Event.scrape name ∉ (mainRun env providers init).2 ∧
    Event.save name ∉ (mainRun env providers init).2 ∧
    (mainRun env providers init).2.all (chkCountOk name (init.count name)) = true := by
  have h' := mainLoop_completed_invariant env name providers 1
    { completed := init, total_games := 0, successful := 0 } h
  exact ⟨h'.1, h'.2.1, h'.2.2.1⟩

/-- Witness for C1: a two-target run resumed with "Ace Roll" already
completed never scrapes, saves, or re-appends it. -/
theorem C1_idempotent_resume_witness :
    Event.scrape "Ace Roll".data ∉
      (mainRun ⟨fun _ => ⟨true, [], 0, [], none⟩, fun _ => "T".data⟩
        [⟨"u1".data, "Ace Roll".data⟩, ⟨"u2".data, "All41".data⟩]
        ["Ace Roll".data]).2 ∧
    Event.save "Ace Roll".data ∉
      (mainRun ⟨fun _ => ⟨true, [], 0, [], none⟩, fun _ => "T".data⟩
        [⟨"u1".data, "Ace Roll".data⟩, ⟨"u2".data, "All41".data⟩]
        ["Ace Roll".data]).2 ∧
    ((mainRun ⟨fun _ => ⟨true, [], 0, [], none⟩, fun _ => "T".data⟩
        [⟨"u1".data, "Ace Roll".data⟩, ⟨"u2".data, "All41".data⟩]
        ["Ace Roll".data]).2.all
      (chkCountOk "Ace Roll".data (["Ace Roll".data].count "Ace Roll".data)) = true) :=
  C1_idempotent_resume _ _ _ _ (by decide)

/-! ## C8 — inter-target isolation -/

/-- A trace respecting inter-target isolation: a concatenation of
per-target segments, each being either a bare skip (no browser work,
no cooldown), or `close_all_chrome` → scrape → `save` + checkpoint
write (successful attempt) → cooldown, or `close_all_chrome` → scrape
→ cooldown (failed attempt).  In particular every scrape is
immediately preceded by a forced browser-process termination and every
non-skipped attempt ends with the fixed cooldown sleep. -/
inductive IsolatedTrace : List Event → Prop where
  | nil : IsolatedTrace []
  | skip (n : Str) {t : List Event} : IsolatedTrace t →
      IsolatedTrace (.skip n :: t)
  | ok (n : Str) (cp : Checkpoint) {t : List Event} : IsolatedTrace t →
      IsolatedTrace (.close :: .scrape n :: .save n :: .chk cp :: .cooldown :: t)
  | fail (n : Str) {t : List Event} : IsolatedTrace t →
      IsolatedTrace (.close :: .scrape n :: .cooldown :: t)

/-- C8 (inter-target isolation): every trace of the orchestrator loop —
whatever the targets, the initial checkpoint state and the scrape
outcomes — decomposes into per-target segments in which every attempt
is opened by a forced termination of leftover browser processes
(`close_all_chrome` precedes the scrape) and closed by the fixed
cooldown sleep, while a skipped target contributes neither. -/
theorem C8_inter_target_isolation (env : RunEnv) :
    ∀ (ps : List Target) (i : Nat) (st : MainState),
      IsolatedTrace (mainLoop env i st ps).2 := by
  intro ps
  induction ps with
  | nil => intro i st; exact IsolatedTrace.nil
  | cons t ts ih =>
      intro i st
      by_cases hmem : t.name ∈ st.completed
      · have hstep : mainStep env i st t = (st, [.skip t.name]) := by
          simp [mainStep, hmem]
        simp only [mainLoop, hstep, List.cons_append, List.nil_append]
        exact IsolatedTrace.skip t.name (ih (i + 1) st)
      · by_cases hsucc : (env.result i).success
        · have hstep : mainStep env i st t =
              ({ completed := st.completed ++ [t.name]
                 total_games := st.total_games + (env.result i).games.length
                 successful := st.successful + 1 },
               [.close, .scrape t.name, .save t.name,
                .chk { completed_providers := st.completed ++ [t.name]
                       last_updated := env.now i
                       total_games_so_far := st.total_games + (env.result i).games.length
                       successful_providers := st.successful + 1 }, .cooldown]) := by
            simp [mainStep, hmem, hsucc]
          simp only [mainLoop, hstep, List.cons_append, List.nil_append]
          exact IsolatedTrace.ok t.name _ (ih (i + 1) _)
        · have hstep : mainStep env i st t =
              (st, [.close, .scrape t.name, .cooldown]) := by
            simp [mainStep, hmem, hsucc]
          simp only [mainLoop, hstep, List.cons_append, List.nil_append]
          exact IsolatedTrace.fail t.name (ih (i + 1) st)

/-! ## C9 — cumulative checkpoint counters -/

lemma mainLoop_firstChk (env : RunEnv) :
    ∀ (ps : List Target) (i : Nat) (st : MainState) (cp : Checkpoint),
      firstChk (mainLoop env i st ps).2 = some cp →
      ∃ j, i ≤ j ∧ (env.result j).success = true ∧
        cp.total_games_so_far = st.total_games + (env.result j).games.length ∧
        cp.successful_providers = st.successful + 1 := by
  intro ps
  induction ps with
  | nil => intro i st cp h; simp [mainLoop, firstChk] at h
  | cons t ts ih =>
      intro i st cp h
      by_cases hmem : t.name ∈ st.completed
      · have hstep : mainStep env i st t = (st, [.skip t.name]) := by
          simp [mainStep, hmem]
        simp only [mainLoop, hstep, List.cons_append, List.nil_append, firstChk] at h
        obtain ⟨j, hj, h1, h2, h3⟩ := ih (i + 1) st cp h
        exact ⟨j, by omega, h1, h2, h3⟩
      · by_cases hsucc : (env.result i).success
        · have hstep : mainStep env i st t =
              ({ completed := st.completed ++ [t.name]
                 total_games := st.total_games + (env.result i).games.length
                 successful := st.successful + 1 },
               [.close, .scrape t.name, .save t.name,
                .chk { completed_providers := st.completed ++ [t.name]
                       last_updated := env.now i
                       total_games_so_far := st.total_games + (env.result i).games.length
                       successful_providers := st.successful + 1 }, .cooldown]) := by
            simp [mainStep, hmem, hsucc]
          simp only [mainLoop, hstep, List.cons_append, List.nil_append, firstChk,
            Option.some.injEq] at h
          exact ⟨i, le_refl i, hsucc, by rw [← h], by rw [← h]⟩
        · have hstep : mainStep env i st t =
              (st, [.close, .scrape t.name, .cooldown]) := by
            simp [mainStep, hmem, hsucc]
          simp only [mainLoop, hstep, List.cons_append, List.nil_append, firstChk] at h
          obtain ⟨j, hj, h1, h2, h3⟩ := ih (i + 1) st cp h
          exact ⟨j, by omega, h1, h2, h3⟩

/-- The first checkpoint written by a run records only this run's
counters: its `total_games_so_far` is exactly the record count of the
one successful target it follows, and its `successful_providers` is 1. -/
def SoleRunWrite (env : RunEnv) (cp : Checkpoint) : Prop :=
  ∃ j, 1 ≤ j ∧ (env.result j).success = true ∧
    cp.total_games_so_far = (env.result j).games.length ∧
    cp.successful_providers = 1

/-- Amended C9: the run initializes `total_games` and
`successful_providers` to zero (only `completed_providers` is read
from the checkpoint), so after a resumed run's first successfully
completed target the persisted `total_games_so_far` equals that
target's record count alone — earlier runs' persisted totals are not
carried over — and `successful_providers` is 1. -/
theorem C9_amended_counters_reset (env : RunEnv) (providers : List Target)
    (init : List Str) (cp : Checkpoint)
    (h : firstChk (mainRun env providers init).2 = some cp) :
    SoleRunWrite env cp := by
  obtain ⟨j, hj, h1, h2, h3⟩ := mainLoop_firstChk env providers 1
    { completed := init, total_games := 0, successful := 0 } cp h
  exact ⟨j, hj, h1, by simpa using h2, by simpa using h3⟩

/-- A record with an arbitrary payload used to give the simulated
first run a positive record count. -/
def gameW : Game := ⟨1, "G".data, [], []⟩

/-- A successful extraction result with `n` records. -/
def resW (n : Nat) : ExtractionResult := ⟨true, List.replicate n gameW, 0, [], none⟩

/-- Environment of the simulated first run: every scrape succeeds with
100 records. -/
def env1W : RunEnv := ⟨fun _ => resW 100, fun _ => "T1".data⟩

/-- Environment of the simulated resumed run: every scrape succeeds
with 7 records. -/
def env2W : RunEnv := ⟨fun _ => resW 7, fun _ => "T2".data⟩

/-- Target A. -/
def tA : Target := ⟨"uA".data, "A".data⟩

/-- Target B. -/
def tB : Target := ⟨"uB".data, "B".data⟩

/-- Counterexample to C9 as stated: run 1 (target A, 100 records)
persists `total_games_so_far = 100`; run 2 resumes with A completed
and successfully scrapes B (7 records); the checkpoint it persists
after that first successfully completed target carries
`total_games_so_far = 7`, not the claimed earlier-runs value plus the
target's count (100 + 7): the counters are reset at run start. -/
theorem C9_counterexample :
    firstChk (mainRun env1W [tA] []).2
      = some ⟨["A".data], "T1".data, 100, 1⟩ ∧
    firstChk (mainRun env2W [tA, tB] ["A".data]).2
      = some ⟨["A".data, "B".data], "T2".data, 7, 1⟩ ∧
    (7 : Nat) ≠ 100 + (env2W.result 2).games.length := by
  refine ⟨by decide, by decide, by decide⟩

/-- Witness for the amended C9: in the resumed run above, the first
checkpoint write satisfies `SoleRunWrite` — its counters come from
this run alone. -/
theorem C9_amended_counters_reset_witness :
    SoleRunWrite env2W ⟨["A".data, "B".data], "T2".data, 7, 1⟩ :=
  C9_amended_counters_reset env2W [tA, tB] ["A".data] _ (by decide)

/-! ## C5 / C7 — asset-fetch pipeline -/

/-- `true` iff none of the fetch events belongs to the record at
1-based position `i`. -/
def noFetchAt (i : Nat) (es : List FEvent) : Bool :=
  es.all (fun e => match e with | .fetch j _ _ => j != i)

lemma pipeAux_append (prov : Str) (fsE : Str → Bool) (fOk : Nat → Bool)
    (xs ys : List PyGame) :
    ∀ i, pipeAux prov fsE fOk i (xs ++ ys)
      = ⟨(pipeAux prov fsE fOk i xs).succ + (pipeAux prov fsE fOk (i + xs.length) ys).succ,
         (pipeAux prov fsE fOk i xs).assets ++ (pipeAux prov fsE fOk (i + xs.length) ys).assets,
         (pipeAux prov fsE fOk i xs).bad + (pipeAux prov fsE fOk (i + xs.length) ys).bad,
         (pipeAux prov fsE fOk i xs).events ++ (pipeAux prov fsE fOk (i + xs.length) ys).events⟩ := by
  induction xs with
  | nil => intro i; simp [pipeAux]
  | cons g gs ih =>
      intro i
      have e : i + (gs.length + 1) = i + 1 + gs.length := by omega
      simp only [List.cons_append, pipeAux, List.append_eq, ih (i + 1),
        List.length_cons, e]
      simp only [PipeOut.mk.injEq]
      refine ⟨by omega, by simp, by omega, by simp⟩

lemma pipeAux_events_idx (prov : Str) (fsE : Str → Bool) (fOk : Nat → Bool) :
    ∀ (gs : List PyGame) (i : Nat) (e : FEvent),
      e ∈ (pipeAux prov fsE fOk i gs).events →
      ∃ j url path, e = .fetch j url path ∧ i ≤ j ∧ j < i + gs.length := by
  intro gs
  induction gs with
  | nil => intro i e he; simp [pipeAux] at he
  | cons g rest ih =>
      intro i e he
      simp only [pipeAux, List.mem_append] at he
      rcases he with he | he
      · have : (processGame prov fsE fOk i g).events = [] ∨
            (processGame prov fsE fOk i g).events
              = [.fetch i (fix_image_url_quality (g.image_url.getD []))
                  (pathOf prov i g)] := by
          unfold processGame
          by_cases h0 : g.image_url.getD [] = []
          · simp [h0]
          · by_cases h1 : fsE (pathOf prov i g)
            · simp [h0, h1]
            · by_cases h2 : fOk i
              · simp [h0, h1, h2]
              · simp [h0, h1, h2]
        rcases this with hnil | hone
        · rw [hnil] at he; simp at he
        · rw [hone] at he
          simp only [List.mem_singleton] at he
          exact ⟨i, _, _, he, le_refl i, by simp⟩
      · obtain ⟨j, url, path, hj, h1, h2⟩ := ih (i + 1) e he
        exact ⟨j, url, path, hj, by omega, by simp only [List.length_cons]; omega⟩

/-- C5 (fetch idempotence): for a record with a non-empty image URL
whose derived output path already exists on disk, the pipeline performs
zero HTTP fetches for that record, still counts it as successful
(contributing exactly 1 to `successful_downloads`), and still appends
its `FetchedAsset` entry to the result list. -/
theorem C5_fetch_idempotence (prov : Str) (fsE : Str → Bool) (fOk : Nat → Bool)
    (pre post : List PyGame) (g : PyGame)
    (himg : g.image_url.getD [] ≠ [])
    (hex : fsE (pathOf prov (pre.length + 1) g) = true) :
    noFetchAt (pre.length + 1)
      (process_provider_with_fixed_urls prov fsE fOk (pre ++ g :: post)).events = true ∧
    mkAsset prov (pre.length + 1) g
      ∈ (process_provider_with_fixed_urls prov fsE fOk (pre ++ g :: post)).assets ∧
    (process_provider_with_fixed_urls prov fsE fOk (pre ++ g :: post)).succ
      = (pipeAux prov fsE fOk 1 pre).succ + 1
        + (pipeAux prov fsE fOk (pre.length + 2) post).succ := by
  have hstep : processGame prov fsE fOk (pre.length + 1) g
      = ⟨1, [mkAsset prov (pre.length + 1) g],
          if badPat <:+: g.image_url.getD [] then 1 else 0, []⟩ := by
    unfold processGame
    simp [himg, hex]
  have hsplit : process_provider_with_fixed_urls prov fsE fOk (pre ++ g :: post)
      = ⟨(pipeAux prov fsE fOk 1 pre).succ
          + (1 + (pipeAux prov fsE fOk (pre.length + 2) post).succ),
         (pipeAux prov fsE fOk 1 pre).assets
          ++ (mkAsset prov (pre.length + 1) g
              :: (pipeAux prov fsE fOk (pre.length + 2) post).assets),
         (pipeAux prov fsE fOk 1 pre).bad
          + ((if badPat <:+: g.image_url.getD [] then 1 else 0)
              + (pipeAux prov fsE fOk (pre.length + 2) post).bad),
         (pipeAux prov fsE fOk 1 pre).events
          ++ (pipeAux prov fsE fOk (pre.length + 2) post).events⟩ := by
    unfold process_provider_with_fixed_urls
    rw [pipeAux_append]
    have e1 : 1 + pre.length = pre.length + 1 := by omega
    rw [e1]
    have hcons : pipeAux prov fsE fOk (pre.length + 1) (g :: post)
        = ⟨1 + (pipeAux prov fsE fOk (pre.length + 2) post).succ,
           mkAsset prov (pre.length + 1) g
             :: (pipeAux prov fsE fOk (pre.length + 2) post).assets,
           (if badPat <:+: g.image_url.getD [] then 1 else 0)
             + (pipeAux prov fsE fOk (pre.length + 2) post).bad,
           (pipeAux prov fsE fOk (pre.length + 2) post).events⟩ := by
      show (⟨(processGame prov fsE fOk (pre.length + 1) g).succ
              + (pipeAux prov fsE fOk (pre.length + 1 + 1) post).succ, _, _, _⟩ : PipeOut) = _
      rw [hstep]
      have e2 : pre.length + 1 + 1 = pre.length + 2 := by omega
      simp [e2]
    rw [hcons]
  refine ⟨?_, ?_, ?_⟩
  · rw [hsplit]
    simp only [noFetchAt, List.all_append, Bool.and_eq_true]
    constructor
    · rw [List.all_eq_true]
      intro e he
      obtain ⟨j, url, path, rfl, h1, h2⟩ :=
        pipeAux_events_idx prov fsE fOk pre 1 e he
      simp only [bne_iff_ne, ne_eq]
      omega
    · rw [List.all_eq_true]
      intro e he
      obtain ⟨j, url, path, rfl, h1, h2⟩ :=
        pipeAux_events_idx prov fsE fOk post (pre.length + 2) e he
      simp only [bne_iff_ne, ne_eq]
      omega
  · rw [hsplit]
    simp
  · rw [hsplit]
    simp only
    omega

/-- A record whose derived path already exists (for the C5 witness). -/
def gExists : PyGame := ⟨some "Book of Time".data, some "https://img/x".data, some "https://roobet.com/g".data⟩

/-- Witness for C5: one record, path already on disk — no fetch event,
entry still appended, counted successful. -/
theorem C5_fetch_idempotence_witness :
    noFetchAt 1 (process_provider_with_fixed_urls "Foxium".data
      (fun _ => true) (fun _ => false) [gExists]).events = true ∧
    mkAsset "Foxium".data 1 gExists
      ∈ (process_provider_with_fixed_urls "Foxium".data
          (fun _ => true) (fun _ => false) [gExists]).assets ∧
    (process_provider_with_fixed_urls "Foxium".data
      (fun _ => true) (fun _ => false) [gExists]).succ
      = (pipeAux "Foxium".data (fun _ => true) (fun _ => false) 1 []).succ + 1
        + (pipeAux "Foxium".data (fun _ => true) (fun _ => false) 2 []).succ := by
  have h := C5_fetch_idempotence "Foxium".data (fun _ => true) (fun _ => false)
    [] [] gExists (by decide) (by decide)
  simpa using h

/-- Amended C7: the `processed_games.append` sits outside the
exists/download branch, so for every record with a non-empty image URL
the `FetchedAsset` entry is appended whether the download succeeded,
failed (an exception inside `download_and_convert_image` is caught and
returned as `False`), or was skipped-as-existing; only records with an
empty image URL are omitted, and processing always continues with the
remaining records. -/
theorem C7_amended_always_appended (prov : Str) (fsE : Str → Bool)
    (fOk : Nat → Bool) (pre post : List PyGame) (g : PyGame) :
    (process_provider_with_fixed_urls prov fsE fOk (pre ++ g :: post)).assets
      = (pipeAux prov fsE fOk 1 pre).assets
        ++ (if g.image_url.getD [] = [] then []
            else [mkAsset prov (pre.length + 1) g])
        ++ (pipeAux prov fsE fOk (pre.length + 2) post).assets := by
  unfold process_provider_with_fixed_urls
  rw [pipeAux_append]
  have e1 : 1 + pre.length = pre.length + 1 := by omega
  rw [e1]
  have hassets : (pipeAux prov fsE fOk (pre.length + 1) (g :: post)).assets
      = (if g.image_url.getD [] = [] then []
          else [mkAsset prov (pre.length + 1) g])
        ++ (pipeAux prov fsE fOk (pre.length + 2) post).assets := by
    have e2 : pre.length + 1 + 1 = pre.length + 2 := by omega
    show (processGame prov fsE fOk (pre.length + 1) g).assets
        ++ (pipeAux prov fsE fOk (pre.length + 1 + 1) post).assets = _
    rw [e2]
    congr 1
    unfold processGame
    by_cases h0 : g.image_url.getD [] = []
    · simp [h0]
    · by_cases h1 : fsE (pathOf prov (pre.length + 1) g)
      · simp [h0, h1]
      · by_cases h2 : fOk (pre.length + 1)
        · simp [h0, h1, h2]
        · simp [h0, h1, h2]
  rw [hassets]
  simp [List.append_assoc]

/-- A record whose fetch raises (for the C7 counterexample): the path
does not exist and `download_and_convert_image` hits its
`except Exception` path, returning `False`. -/
def gFail : PyGame := ⟨some "Book of Dead".data, some "https://img/bad".data, some "https://roobet.com/b".data⟩

/-- Counterexample to C7 as stated: a single record with a non-empty
image URL whose fetch fails (exception caught inside the download
helper, which returns `False`, so `successful_downloads` stays 0) is
NOT omitted — its `FetchedAsset` entry is still appended to the
returned list. -/
theorem C7_counterexample :
    (process_provider_with_fixed_urls "Degen Studios".data
        (fun _ => false) (fun _ => false) [gFail]).succ = 0 ∧
    (process_provider_with_fixed_urls "Degen Studios".data
        (fun _ => false) (fun _ => false) [gFail]).events
      = [.fetch 1 (fix_image_url_quality "https://img/bad".data)
          (pathOf "Degen Studios".data 1 gFail)] ∧
    (process_provider_with_fixed_urls "Degen Studios".data
        (fun _ => false) (fun _ => false) [gFail]).assets
      = [mkAsset "Degen Studios".data 1 gFail] := by
  refine ⟨by decide, by decide, by decide⟩

/-! ## C2 — checkpoint write atomicity -/

lemma digitChar_ne_rbrace : ∀ d, d < 10 → digitChar d ≠ '}' := by decide

lemma natDecAux_ne_rbrace :
    ∀ (fuel n : Nat) (acc : Str), (∀ c ∈ acc, c ≠ '}') →
      ∀ c ∈ natDecAux fuel n acc, c ≠ '}' := by
  intro fuel
  induction fuel with
  | zero => intro n acc hacc c hc; exact hacc c hc
  | succ f ih =>
      intro n acc hacc c hc
      have hd : digitChar (n % 10) ≠ '}' :=
        digitChar_ne_rbrace (n % 10) (Nat.mod_lt n (by omega))
      simp only [natDecAux] at hc
      by_cases h0 : n / 10 = 0
      · simp only [h0, if_true] at hc
        rcases List.mem_cons.mp hc with rfl | hc
        · exact hd
        · exact hacc c hc
      · simp only [h0, if_false] at hc
        refine ih (n / 10) (digitChar (n % 10) :: acc) ?_ c hc
        intro x hx
        rcases List.mem_cons.mp hx with rfl | hx
        · exact hd
        · exact hacc x hx

lemma natDec_ne_rbrace (n : Nat) : '}' ∉ natDec n := by
  intro h
  exact natDecAux_ne_rbrace (n + 1) n [] (by simp) '}' h rfl

lemma escChar_ne_rbrace (c : Char) (h : c ≠ '}') : '}' ∉ escChar c := by
  unfold escChar
  by_cases h1 : c = '"'
  · simp [h1]
  · by_cases h2 : c = '\\'
    · simp [h1, h2]
    · simp only [h1, h2, if_false]
      intro hm
      rcases List.mem_singleton.mp hm with rfl
      exact h rfl

lemma escape_ne_rbrace (s : Str) (h : '}' ∉ s) : '}' ∉ escape s := by
  induction s with
  | nil => simp [escape]
  | cons c t ih =>
      simp only [escape, List.mem_append]
      rintro (hm | hm)
      · exact escChar_ne_rbrace c (fun he => h (he ▸ List.mem_cons_self c t)) hm
      · exact ih (fun hx => h (List.mem_cons_of_mem c hx)) hm

lemma not_mem_append {c : Char} {a b : Str} (ha : c ∉ a) (hb : c ∉ b) :
    c ∉ a ++ b := by
  intro h
  rcases List.mem_append.mp h with h | h
  · exact ha h
  · exact hb h

lemma jstr_ne_rbrace (s : Str) (h : '}' ∉ s) : '}' ∉ jstr s := by
  intro hm
  rcases List.mem_cons.mp hm with hq | hq
  · exact absurd hq (by decide)
  · exact not_mem_append (escape_ne_rbrace s h) (by decide) hq

lemma serializeItems_ne_rbrace (l : List Str) (h : ∀ p ∈ l, '}' ∉ p) :
    '}' ∉ serializeItems l := by
  induction l with
  | nil => simp [serializeItems]
  | cons x xs ih =>
      cases xs with
      | nil =>
          have heq : serializeItems [x] = "    ".data ++ jstr x := rfl
          rw [heq]
          exact not_mem_append (by decide) (jstr_ne_rbrace x (h x (by simp)))
      | cons y ys =>
          simp only [serializeItems]
          refine not_mem_append ?_ (ih (fun p hp => h p (List.mem_cons_of_mem x hp)))
          refine not_mem_append ?_ (by decide)
          exact not_mem_append (by decide) (jstr_ne_rbrace x (h x (by simp)))

lemma serializeProviders_ne_rbrace (l : List Str) (h : ∀ p ∈ l, '}' ∉ p) :
    '}' ∉ serializeProviders l := by
  cases l with
  | nil =>
      have heq : serializeProviders [] = "[]".data := rfl
      rw [heq]; decide
  | cons x xs =>
      have heq : serializeProviders (x :: xs)
          = "[\n".data ++ (serializeItems (x :: xs) ++ "\n  ]".data) := rfl
      rw [heq]
      exact not_mem_append (by decide)
        (not_mem_append (serializeItems_ne_rbrace (x :: xs) h) (by decide))

/-- The checkpoint fields contain no `}` character (true of the
source's provider names and ISO timestamps); under this condition the
serialization's only `}` is its final character. -/
def braceFree (cp : Checkpoint) : Prop :=
  (∀ p ∈ cp.completed_providers, '}' ∉ p) ∧ '}' ∉ cp.last_updated

instance (cp : Checkpoint) : Decidable (braceFree cp) := by
  unfold braceFree; infer_instance

lemma serializeBody_ne_rbrace (cp : Checkpoint) (h : braceFree cp) :
    '}' ∉ serializeBody cp := by
  have hp := serializeProviders_ne_rbrace cp.completed_providers h.1
  have hj := jstr_ne_rbrace cp.last_updated h.2
  have hn1 := natDec_ne_rbrace cp.total_games_so_far
  have hn2 := natDec_ne_rbrace cp.successful_providers
  unfold serializeBody
  refine not_mem_append ?_ (by decide)
  refine not_mem_append ?_ hn2
  refine not_mem_append ?_ (by decide)
  refine not_mem_append ?_ hn1
  refine not_mem_append ?_ (by decide)
  refine not_mem_append ?_ hj
  refine not_mem_append ?_ (by decide)
  exact not_mem_append (by decide) hp

lemma serializeCheckpoint_rbrace_mem (cp : Checkpoint) :
    '}' ∈ serializeCheckpoint cp := by
  simp [serializeCheckpoint]

/-- Amended C2: the source persists the checkpoint by truncating
`checkpoint.json` in place (`open(..., 'w')`) and writing the new JSON
into it — not by write-then-replace.  A crash at any point of that
persist step leaves either the old content (crash before the
truncating open), the complete new serialization, or a strict prefix
of it (possibly empty); every strict prefix fails to parse as a
checkpoint (it contains no closing brace, while every complete
serialization ends in one), so readers treat it as "no checkpoint".
The complete pre-write state, however, is not recoverable once
truncation has happened. -/
theorem C2_amended_truncate_write (old : Str) (cp : Checkpoint)
    (hb : braceFree cp) (s : Str)
    (hs : s ∈ persistStates old (serializeCheckpoint cp)) :
    s = old ∨ s = serializeCheckpoint cp ∨ ¬ parsesAsCheckpoint s := by
  rcases List.mem_cons.mp hs with rfl | hs
  · exact Or.inl rfl
  · simp only [List.mem_map, List.mem_range] at hs
    obtain ⟨k, hk, rfl⟩ := hs
    by_cases hlen : k = (serializeCheckpoint cp).length
    · subst hlen
      exact Or.inr (Or.inl (List.take_length _))
    · refine Or.inr (Or.inr ?_)
      rintro ⟨cp', hcp'⟩
      have hklt : k < (serializeCheckpoint cp).length := by omega
      have hkbody : k ≤ (serializeBody cp).length := by
        have : (serializeCheckpoint cp).length = (serializeBody cp).length + 1 := by
          simp [serializeCheckpoint]
        omega
      have htake : (serializeCheckpoint cp).take k = (serializeBody cp).take k := by
        unfold serializeCheckpoint
        exact List.take_append_of_le_length hkbody
      have hmem : '}' ∈ (serializeCheckpoint cp).take k := by
        rw [hcp']
        exact hcp' ▸ serializeCheckpoint_rbrace_mem cp'
      rw [htake] at hmem
      exact serializeBody_ne_rbrace cp hb (List.mem_of_mem_take hmem)

/-- Pre-write checkpoint state for the C2 counterexample. -/
def cpOldW : Checkpoint := ⟨[], "t0".data, 0, 0⟩

/-- Post-write checkpoint state for the C2 counterexample. -/
def cpNewW : Checkpoint := ⟨["Ace Roll".data], "t1".data, 41, 1⟩

set_option maxRecDepth 8192 in
/-- Counterexample to C2 as stated: the persist step is not
write-then-replace.  Under write-then-replace the checkpoint path
holds the complete pre-write or complete post-write content at every
instant; the source's truncate-and-overwrite persist exhibits an
observable crash state — the empty file right after the truncating
`open(..., 'w')` — that is neither. -/
theorem C2_counterexample :
    [] ∈ persistStates (serializeCheckpoint cpOldW) (serializeCheckpoint cpNewW) ∧
    [] ∉ writeThenReplaceStates (serializeCheckpoint cpOldW)
          (serializeCheckpoint cpNewW) := by
  refine ⟨by decide, by decide⟩

/-! ## C4 / C10 — URL normalization: theory of `replaceList` -/

lemma replaceListAux_nil (pat repl : Str) (fuel : Nat) :
    replaceListAux pat repl fuel [] = [] := by
  cases fuel <;> rfl

lemma replaceListAux_irrel (pat repl : Str) :
    ∀ fuel fuel' s, s.length ≤ fuel → s.length ≤ fuel' →
      replaceListAux pat repl fuel s = replaceListAux pat repl fuel' s := by
  intro fuel
  induction fuel with
  | zero =>
      intro fuel' s hs _
      have h0 : s = [] := List.length_eq_zero.mp (Nat.le_zero.mp hs)
      subst h0
      rw [replaceListAux_nil, replaceListAux_nil]
  | succ f ih =>
      intro fuel' s hs hs'
      cases s with
      | nil => rw [replaceListAux_nil, replaceListAux_nil]
      | cons c t =>
          cases fuel' with
          | zero => simp only [List.length_cons] at hs'; omega
          | succ f' =>
              simp only [replaceListAux]
              by_cases h : pat.isEmpty = false ∧ pat.isPrefixOf (c :: t) = true
              · rw [if_pos h, if_pos h]
                congr 1
                have hplen : 1 ≤ pat.length := by
                  cases pat with
                  | nil => simp at h
                  | cons _ _ => simp
                simp only [List.length_cons] at hs hs'
                apply ih
                · simp only [List.length_drop, List.length_cons]; omega
                · simp only [List.length_drop, List.length_cons]; omega
              · rw [if_neg h, if_neg h]
                congr 1
                simp only [List.length_cons] at hs hs'
                apply ih
                · omega
                · omega

lemma replaceList_nil (pat repl : Str) : replaceList pat repl [] = [] := rfl

lemma replaceList_cons_pos (pat repl : Str) (c : Char) (t : Str)
    (hp : pat ≠ []) (hpre : pat <+: (c :: t)) :
    replaceList pat repl (c :: t)
      = repl ++ replaceList pat repl ((c :: t).drop pat.length) := by
  have hcond : pat.isEmpty = false ∧ pat.isPrefixOf (c :: t) = true := by
    constructor
    · cases pat with
      | nil => exact absurd rfl hp
      | cons _ _ => rfl
    · exact List.isPrefixOf_iff_prefix.mpr hpre
  have hplen : 1 ≤ pat.length := by
    cases pat with
    | nil => exact absurd rfl hp
    | cons _ _ => simp
  show replaceListAux pat repl (c :: t).length (c :: t) = _
  simp only [List.length_cons, replaceListAux]
  rw [if_pos hcond]
  congr 1
  apply replaceListAux_irrel
  · simp only [List.length_drop, List.length_cons]; omega
  · exact le_refl _

lemma replaceList_cons_neg (pat repl : Str) (c : Char) (t : Str)
    (h : ¬ (pat ≠ [] ∧ pat <+: (c :: t))) :
    replaceList pat repl (c :: t) = c :: replaceList pat repl t := by
  have hcond : ¬ (pat.isEmpty = false ∧ pat.isPrefixOf (c :: t) = true) := by
    rintro ⟨h1, h2⟩
    apply h
    constructor
    · intro he; rw [he] at h1; simp at h1
    · exact List.isPrefixOf_iff_prefix.mp h2
  show replaceListAux pat repl (c :: t).length (c :: t) = _
  simp only [List.length_cons, replaceListAux]
  rw [if_neg hcond]
  rfl

lemma prefix_append_cases {x y z : Str} (h : x <+: y ++ z) : x <+: y ∨ y <+: x := by
  rcases Nat.le_total x.length y.length with hle | hle
  · left
    have hx := List.prefix_iff_eq_take.mp h
    rw [List.take_append_eq_append_take] at hx
    have h0 : x.length - y.length = 0 := by omega
    rw [h0] at hx
    simp only [List.take_zero, List.append_nil] at hx
    rw [hx]
    exact List.take_prefix _ _
  · right
    have hx := List.prefix_iff_eq_take.mp h
    rw [List.take_append_eq_append_take, List.take_of_length_le hle] at hx
    rw [hx]
    exact List.prefix_append _ _

lemma infix_iff_exists_drop {x w : Str} : x <:+: w ↔ ∃ p, x <+: w.drop p := by
  constructor
  · rintro ⟨s, t, rfl⟩
    refine ⟨s.length, ?_⟩
    rw [List.append_assoc, List.drop_left]
    exact List.prefix_append _ _
  · rintro ⟨p, hp⟩
    exact hp.isInfix.trans (List.drop_suffix p w).isInfix

lemma replaceList_id_of_absent (pat repl : Str) :
    ∀ s, ¬ pat <:+: s → replaceList pat repl s = s := by
  have key : ∀ n s, s.length ≤ n → ¬ pat <:+: s → replaceList pat repl s = s := by
    intro n
    induction n with
    | zero =>
        intro s hs _
        have h0 : s = [] := List.length_eq_zero.mp (Nat.le_zero.mp hs)
        subst h0
        exact replaceList_nil pat repl
    | succ m ih =>
        intro s hs hinf
        cases s with
        | nil => exact replaceList_nil pat repl
        | cons c t =>
            have hnp : ¬ (pat ≠ [] ∧ pat <+: (c :: t)) := by
              rintro ⟨_, h2⟩; exact hinf h2.isInfix
            rw [replaceList_cons_neg pat repl c t hnp]
            have ht : t.length ≤ m := by simp only [List.length_cons] at hs; omega
            rw [ih t ht (fun h => hinf (List.infix_cons h))]
  exact fun s => key s.length s (le_refl _)

lemma replaceList_inserts_repl (pat repl : Str) (hp : pat ≠ []) :
    ∀ s, pat <:+: s → repl <:+: replaceList pat repl s := by
  have key : ∀ n s, s.length ≤ n → pat <:+: s → repl <:+: replaceList pat repl s := by
    intro n
    induction n with
    | zero =>
        intro s hs hinf
        have h0 : s = [] := List.length_eq_zero.mp (Nat.le_zero.mp hs)
        subst h0
        exact absurd (List.infix_nil.mp hinf) hp
    | succ m ih =>
        intro s hs hinf
        cases s with
        | nil => exact absurd (List.infix_nil.mp hinf) hp
        | cons c t =>
            by_cases hpre : pat <+: (c :: t)
            · rw [replaceList_cons_pos pat repl c t hp hpre]
              exact (List.prefix_append repl _).isInfix
            · rw [replaceList_cons_neg pat repl c t (fun hc => hpre hc.2)]
              have ht : t.length ≤ m := by simp only [List.length_cons] at hs; omega
              have hint : pat <:+: t := (List.infix_cons_iff.mp hinf).resolve_left hpre
              exact List.infix_cons (ih t ht hint)
  exact fun s => key s.length s (le_refl _)

lemma prefix_replaceList (pat repl : Str) (hp : pat ≠ []) :
    ∀ s q, q <+: replaceList pat repl s →
      q <+: s ∨ ∃ a b, s = a ++ pat ++ b ∧ a <+: q ∧ a.length < q.length ∧
        q.drop a.length <+: repl ++ replaceList pat repl b := by
  have key : ∀ n s q, s.length ≤ n → q <+: replaceList pat repl s →
      q <+: s ∨ ∃ a b, s = a ++ pat ++ b ∧ a <+: q ∧ a.length < q.length ∧
        q.drop a.length <+: repl ++ replaceList pat repl b := by
    intro n
    induction n with
    | zero =>
        intro s q hs hq
        have h0 : s = [] := List.length_eq_zero.mp (Nat.le_zero.mp hs)
        subst h0
        rw [replaceList_nil] at hq
        exact Or.inl hq
    | succ m ih =>
        intro s q hs hq
        cases s with
        | nil => rw [replaceList_nil] at hq; exact Or.inl hq
        | cons c t =>
            by_cases hpre : pat <+: (c :: t)
            · rw [replaceList_cons_pos pat repl c t hp hpre] at hq
              by_cases hq0 : q = []
              · subst hq0; exact Or.inl (List.nil_prefix)
              · right
                obtain ⟨b, hb⟩ := hpre
                have hdropb : (c :: t).drop pat.length = b := by
                  rw [← hb]; exact List.drop_left pat b
                refine ⟨[], b, ?_, List.nil_prefix, ?_, ?_⟩
                · simp only [List.nil_append]; exact hb.symm
                · simpa using List.length_pos.mpr hq0
                · rw [hdropb] at hq; simpa using hq
            · rw [replaceList_cons_neg pat repl c t (fun hc => hpre hc.2)] at hq
              cases q with
              | nil => exact Or.inl (List.nil_prefix)
              | cons q0 q' =>
                  obtain ⟨he, hq'⟩ := List.cons_prefix_cons.mp hq
                  subst he
                  have ht : t.length ≤ m := by simp only [List.length_cons] at hs; omega
                  rcases ih t q' ht hq' with h | ⟨a, b, hab, hpref, hlt, hdrop⟩
                  · exact Or.inl (List.cons_prefix_cons.mpr ⟨rfl, h⟩)
                  · right
                    refine ⟨q0 :: a, b, ?_, List.cons_prefix_cons.mpr ⟨rfl, hpref⟩, ?_, ?_⟩
                    · simp [hab]
                    · simp only [List.length_cons]; omega
                    · simpa [List.drop_succ_cons] using hdrop
  exact fun s q => key s.length s q (le_refl _)

/-- Straddle-freeness of a string `x` against a replacement `repl`:
no way to begin or end an occurrence of `x` at the boundary of an
inserted copy of `repl`.  Checked by `decide` for the concrete rule
strings of `fix_image_url_quality`. -/
def straddleFree (x repl : Str) : Prop :=
  (∀ p, p < repl.length → ¬ x <+: repl.drop p ∧ ¬ repl.drop p <+: x) ∧
  (∀ j, j < x.length → 0 < j → ¬ x.drop j <+: repl ∧ ¬ repl <+: x.drop j)

instance (x repl : Str) : Decidable (straddleFree x repl) := by
  unfold straddleFree; infer_instance

lemma replaceList_no_self_occurrence (pat repl : Str) (hp : pat ≠ [])
    (hA : straddleFree pat repl) :
    ∀ s, ¬ pat <:+: replaceList pat repl s := by
  have key : ∀ n s, s.length ≤ n → ¬ pat <:+: replaceList pat repl s := by
    intro n
    induction n with
    | zero =>
        intro s hs
        have h0 : s = [] := List.length_eq_zero.mp (Nat.le_zero.mp hs)
        subst h0
        rw [replaceList_nil, List.infix_nil]
        exact hp
    | succ m ih =>
        intro s hs
        cases s with
        | nil => rw [replaceList_nil, List.infix_nil]; exact hp
        | cons c t =>
            have hplen : 1 ≤ pat.length := by
              cases pat with
              | nil => exact absurd rfl hp
              | cons _ _ => simp
            by_cases hpre : pat <+: (c :: t)
            · rw [replaceList_cons_pos pat repl c t hp hpre]
              intro hinf
              obtain ⟨p, hpfx⟩ := infix_iff_exists_drop.mp hinf
              by_cases hpr : p < repl.length
              · rw [List.drop_append_of_le_length (le_of_lt hpr)] at hpfx
                rcases prefix_append_cases hpfx with h | h
                · exact (hA.1 p hpr).1 h
                · exact (hA.1 p hpr).2 h
              · push_neg at hpr
                rw [List.drop_append_eq_append_drop,
                  List.drop_eq_nil_of_le hpr, List.nil_append] at hpfx
                have hbinf : pat <:+: replaceList pat repl ((c :: t).drop pat.length) :=
                  infix_iff_exists_drop.mpr ⟨p - repl.length, hpfx⟩
                refine ih _ ?_ hbinf
                simp only [List.length_drop, List.length_cons]
                simp only [List.length_cons] at hs
                omega
            · rw [replaceList_cons_neg pat repl c t (fun hc => hpre hc.2)]
              intro hinf
              rcases List.infix_cons_iff.mp hinf with hpfx | hinf'
              · cases pat with
                | nil => exact hp rfl
                | cons p0 ps =>
                    obtain ⟨he, hps⟩ := List.cons_prefix_cons.mp hpfx
                    subst he
                    rcases prefix_replaceList (p0 :: ps) repl hp t ps hps with
                      h | ⟨a, b, hab, hpref, hlt, hdrop⟩
                    · exact hpre (List.cons_prefix_cons.mpr ⟨rfl, h⟩)
                    · have hj1 : 0 < a.length + 1 := Nat.succ_pos _
                      have hj2 : a.length + 1 < (p0 :: ps).length := by
                        simp only [List.length_cons]; omega
                      have hdropj : (p0 :: ps).drop (a.length + 1) = ps.drop a.length :=
                        List.drop_succ_cons
                      rcases prefix_append_cases hdrop with h | h
                      · exact (hA.2 (a.length + 1) hj2 hj1).1 (by rw [hdropj]; exact h)
                      · exact (hA.2 (a.length + 1) hj2 hj1).2 (by rw [hdropj]; exact h)
              · have ht : t.length ≤ m := by simp only [List.length_cons] at hs; omega
                exact ih t ht hinf'
  exact fun s => key s.length s (le_refl _)

lemma replaceList_keeps_absent (x pat repl : Str) (hp : pat ≠ [])
    (hC : straddleFree x repl) :
    ∀ s, ¬ x <:+: s → ¬ x <:+: replaceList pat repl s := by
  have key : ∀ n s, s.length ≤ n → ¬ x <:+: s → ¬ x <:+: replaceList pat repl s := by
    intro n
    induction n with
    | zero =>
        intro s hs hxs
        have h0 : s = [] := List.length_eq_zero.mp (Nat.le_zero.mp hs)
        subst h0
        rw [replaceList_nil]
        exact hxs
    | succ m ih =>
        intro s hs hxs
        cases s with
        | nil => rw [replaceList_nil]; exact hxs
        | cons c t =>
            have hplen : 1 ≤ pat.length := by
              cases pat with
              | nil => exact absurd rfl hp
              | cons _ _ => simp
            by_cases hpre : pat <+: (c :: t)
            · rw [replaceList_cons_pos pat repl c t hp hpre]
              intro hinf
              obtain ⟨p, hpfx⟩ := infix_iff_exists_drop.mp hinf
              by_cases hpr : p < repl.length
              · rw [List.drop_append_of_le_length (le_of_lt hpr)] at hpfx
                rcases prefix_append_cases hpfx with h | h
                · exact (hC.1 p hpr).1 h
                · exact (hC.1 p hpr).2 h
              · push_neg at hpr
                rw [List.drop_append_eq_append_drop,
                  List.drop_eq_nil_of_le hpr, List.nil_append] at hpfx
                have hbinf : x <:+: replaceList pat repl ((c :: t).drop pat.length) :=
                  infix_iff_exists_drop.mpr ⟨p - repl.length, hpfx⟩
                have hnb : ¬ x <:+: (c :: t).drop pat.length :=
                  fun h => hxs (h.trans (List.drop_suffix _ _).isInfix)
                refine ih _ ?_ hnb hbinf
                simp only [List.length_drop, List.length_cons]
                simp only [List.length_cons] at hs
                omega
            · rw [replaceList_cons_neg pat repl c t (fun hc => hpre hc.2)]
              intro hinf
              have hnt : ¬ x <:+: t := fun h => hxs (List.infix_cons h)
              rcases List.infix_cons_iff.mp hinf with hpfx | hinf'
              · cases x with
                | nil => exact hxs List.nil_infix
                | cons x0 xs =>
                    obtain ⟨he, hxs'⟩ := List.cons_prefix_cons.mp hpfx
                    subst he
                    rcases prefix_replaceList pat repl hp t xs hxs' with
                      h | ⟨a, b, hab, hpref, hlt, hdrop⟩
                    · exact hxs (List.IsPrefix.isInfix
                        (List.cons_prefix_cons.mpr ⟨rfl, h⟩))
                    · have hj1 : 0 < a.length + 1 := Nat.succ_pos _
                      have hj2 : a.length + 1 < (x0 :: xs).length := by
                        simp only [List.length_cons]; omega
                      have hdropj : (x0 :: xs).drop (a.length + 1) = xs.drop a.length :=
                        List.drop_succ_cons
                      rcases prefix_append_cases hdrop with h | h
                      · exact (hC.2 (a.length + 1) hj2 hj1).1 (by rw [hdropj]; exact h)
                      · exact (hC.2 (a.length + 1) hj2 hj1).2 (by rw [hdropj]; exact h)
              · have ht : t.length ≤ m := by simp only [List.length_cons] at hs; omega
                exact ih t ht hnt hinf'
  exact fun s => key s.length s (le_refl _)

set_option maxRecDepth 8192 in
lemma straddle_bad_good : straddleFree badPat goodRepl := by decide

set_option maxRecDepth 8192 in
lemma straddle_bad_contain : straddleFree badPat containRepl := by decide

set_option maxRecDepth 8192 in
lemma straddle_cover_contain : straddleFree coverPat containRepl := by decide

lemma badPat_ne_nil : badPat ≠ [] := by decide

lemma coverPat_ne_nil : coverPat ≠ [] := by decide

/-- After `fix_image_url_quality`, the low-fidelity pattern never
remains: the first rule removes every occurrence without creating a
new one, and the second rule cannot create one either. -/
lemma fix_no_badPat (u : Str) : ¬ badPat <:+: fix_image_url_quality u := by
  by_cases hu : u = []
  · subst hu
    rw [show fix_image_url_quality [] = [] from rfl, List.infix_nil]
    exact badPat_ne_nil
  · have hfix : fix_image_url_quality u
        = replaceList coverPat containRepl (replaceList badPat goodRepl u) := by
      simp [fix_image_url_quality, hu]
    rw [hfix]
    exact replaceList_keeps_absent badPat coverPat containRepl
      coverPat_ne_nil straddle_bad_contain _
      (replaceList_no_self_occurrence badPat goodRepl badPat_ne_nil straddle_bad_good u)

/-- C10 (normalization idempotence): applying `fix_image_url_quality`
twice gives the same result as applying it once — after one pass
neither rule's search pattern occurs in the output (neither
replacement can re-create either pattern across a boundary), so the
second pass replaces nothing. -/
theorem C10_normalize_idempotent (u : Str) :
    fix_image_url_quality (fix_image_url_quality u) = fix_image_url_quality u := by
  by_cases hu : u = []
  · subst hu; rfl
  · have hfix : fix_image_url_quality u
        = replaceList coverPat containRepl (replaceList badPat goodRepl u) := by
      simp [fix_image_url_quality, hu]
    by_cases hv : fix_image_url_quality u = []
    · rw [hv]; rfl
    · have h1 : ¬ badPat <:+: fix_image_url_quality u := fix_no_badPat u
      have h2 : ¬ coverPat <:+: fix_image_url_quality u := by
        rw [hfix]
        exact replaceList_no_self_occurrence coverPat containRepl coverPat_ne_nil
          straddle_cover_contain _
      have hstep : ∀ w : Str, w ≠ [] → ¬ badPat <:+: w → ¬ coverPat <:+: w →
          fix_image_url_quality w = w := by
        intro w hw hb hc
        have hw' : fix_image_url_quality w
            = replaceList coverPat containRepl (replaceList badPat goodRepl w) := by
          simp [fix_image_url_quality, hw]
        rw [hw', replaceList_id_of_absent badPat goodRepl w hb,
          replaceList_id_of_absent coverPat containRepl w hc]
      exact hstep _ hv h1 h2

set_option maxRecDepth 8192 in
/-- Counterexample to C4 as stated: the input
`"width=195,height=260,quality=20,blur=150,fit=cover"` contains the
bad substring, but in the output that substring does NOT become
`"quality=90,blur=0"`: rule 1 rewrites it to the high-fidelity cover
pattern, which rule 2 then upgrades to `"quality=95,blur=0"`, so the
claimed replacement text is absent from the final output. -/
theorem C4_counterexample :
    badPat <:+: "width=195,height=260,quality=20,blur=150,fit=cover".data ∧
    fix_image_url_quality "width=195,height=260,quality=20,blur=150,fit=cover".data
      = "width=400,height=600,quality=95,blur=0,fit=contain".data ∧
    ¬ goodRepl <:+:
        fix_image_url_quality "width=195,height=260,quality=20,blur=150,fit=cover".data := by
  refine ⟨by decide, by decide, by decide⟩

/-- Amended C4: `normalize` is a pure function (a Lean function by
construction); the empty string is returned unchanged; a URL in which
neither rule's search pattern occurs is returned unchanged; the bad
substring `"quality=20,blur=150"` never survives into the output, and
when it occurs in the input the output contains `"quality=90,blur=0"`
— unless the rewrite completes the high-fidelity cover pattern, in
which case the second rule upgrades it further and the output contains
`"quality=95,blur=0"` instead; a URL containing the high-fidelity
cover pattern but not the bad pattern is upgraded to the documented
better pattern. -/
theorem C4_normalize_amended (u : Str) :
    fix_image_url_quality [] = [] ∧
    (¬ badPat <:+: u → ¬ coverPat <:+: u → fix_image_url_quality u = u) ∧
    ¬ badPat <:+: fix_image_url_quality u ∧
    (badPat <:+: u →
      goodRepl <:+: fix_image_url_quality u ∨ best95 <:+: fix_image_url_quality u) ∧
    (¬ badPat <:+: u → coverPat <:+: u →
      containRepl <:+: fix_image_url_quality u) := by
  refine ⟨rfl, ?_, fix_no_badPat u, ?_, ?_⟩
  · intro h1 h2
    by_cases hu : u = []
    · subst hu; rfl
    · have hfix : fix_image_url_quality u
          = replaceList coverPat containRepl (replaceList badPat goodRepl u) := by
        simp [fix_image_url_quality, hu]
      rw [hfix, replaceList_id_of_absent badPat goodRepl u h1,
        replaceList_id_of_absent coverPat containRepl u h2]
  · intro hbad
    have hu : u ≠ [] := by
      intro he; rw [he, List.infix_nil] at hbad; exact badPat_ne_nil hbad
    have hfix : fix_image_url_quality u
        = replaceList coverPat containRepl (replaceList badPat goodRepl u) := by
      simp [fix_image_url_quality, hu]
    have hgood : goodRepl <:+: replaceList badPat goodRepl u :=
      replaceList_inserts_repl badPat goodRepl badPat_ne_nil u hbad
    by_cases hcov : coverPat <:+: replaceList badPat goodRepl u
    · right
      rw [hfix]
      have hcontain : containRepl <:+:
          replaceList coverPat containRepl (replaceList badPat goodRepl u) :=
        replaceList_inserts_repl coverPat containRepl coverPat_ne_nil _ hcov
      exact List.IsInfix.trans (by decide : best95 <:+: containRepl) hcontain
    · left
      rw [hfix, replaceList_id_of_absent coverPat containRepl _ hcov]
      exact hgood
  · intro h1 h2
    have hu : u ≠ [] := by
      intro he; rw [he, List.infix_nil] at h2; exact coverPat_ne_nil h2
    have hfix : fix_image_url_quality u
        = replaceList coverPat containRepl (replaceList badPat goodRepl u) := by
      simp [fix_image_url_quality, hu]
    rw [hfix, replaceList_id_of_absent badPat goodRepl u h1]
    exact replaceList_inserts_repl coverPat containRepl coverPat_ne_nil u h2

set_option maxRecDepth 8192 in
/-- Witness for the amended C4: an unrelated URL is unchanged; a URL
containing the bad substring yields an output containing the good (or
further-upgraded) substring; a URL containing only the cover pattern
is upgraded to the contain pattern. -/
theorem C4_normalize_amended_witness :
    fix_image_url_quality "https://cdn/img.png?w=10".data
      = "https://cdn/img.png?w=10".data ∧
    (goodRepl <:+: fix_image_url_quality "a?quality=20,blur=150&b".data ∨
      best95 <:+: fix_image_url_quality "a?quality=20,blur=150&b".data) ∧
    containRepl <:+:
      fix_image_url_quality
        "i?width=195,height=260,quality=90,blur=0,fit=cover&z".data := by
  refine ⟨(C4_normalize_amended "https://cdn/img.png?w=10".data).2.1
      (by decide) (by decide),
    (C4_normalize_amended "a?quality=20,blur=150&b".data).2.2.2.1 (by decide),
    (C4_normalize_amended "i?width=195,height=260,quality=90,blur=0,fit=cover&z".data).2.2.2.2
      (by decide) (by decide)⟩

set_option maxRecDepth 8192 in
/-- Witness for the amended C2: the one-character crash state `"{"` of
a concrete persist is classified by the amended theorem — and indeed
it is not the old content and not the new content, so it falls into
the "fails to parse" arm. -/
theorem C2_amended_truncate_write_witness :
    ['{'] = serializeCheckpoint cpOldW ∨ ['{'] = serializeCheckpoint cpNewW ∨
      ¬ parsesAsCheckpoint ['{'] :=
  C2_amended_truncate_write (serializeCheckpoint cpOldW) cpNewW (by decide)
    ['{'] (by decide)

end Roobet
